import Mathlib

/-!
Verification of the ruststep repository's specification against a shallow
embedding of its source.

The embedding covers:
* the ISO-10303-21 (Part 21) token parsers of `ruststep/src/parser/token.rs`
  and `espr-runtime/src/parser/token.rs` (built on the nom combinators
  `opt`, `tuple`, `alt`, `char`, `digit0`, `digit1`, `multispace0`,
  `none_of`, `tag`, `many0`, `double`);
* the EXPRESS `derive_clause` parser of `espr/src/parser/clause/derive.rs`;
* the legalizer driver `Schema::legalize` of `espr/src/semantics/schema.rs`;
* the constraint analyzer `Constraints::new` / `Constraints::is_supertype`
  of `espr/src/ir/constraints.rs`.

Input text is a `List Char`.  A parser consumes a prefix and returns the
remaining input, an error, a non-recoverable failure (nom `Err::Failure`,
used for the u64-overflow context), or a panic (a Rust `expect` firing).
Machine integers are `Nat`/`Int` with explicit bounds (`i64Max`, `u64Max`);
`f64` values are kept in their textual/structural form since no claim
depends on float arithmetic.
-/

/-- Result of running an embedded nom parser: success with a value and the
remaining input, a recoverable error (nom `Err::Error`), a non-recoverable
failure with a context string (nom `Err::Failure`), or a Rust panic. -/
inductive PResult (α : Type) where
  | ok (value : α) (rest : List Char)
  | err
  | fail (ctx : String)
  | panic
deriving DecidableEq, Repr

/-- ASCII decimal digit, the character class of nom `digit0`/`digit1`. -/
def isDigitCh (c : Char) : Bool := '0' ≤ c && c ≤ '9'

/-- Character class of nom `multispace0`: space, tab, carriage return, newline. -/
def isSpaceCh (c : Char) : Bool := c = ' ' || c = '\t' || c = '\r' || c = '\n'

/-- Numeric value of an ASCII digit character. -/
def digitVal (c : Char) : Nat := c.toNat - 48

/-- Value of a decimal digit string, as computed by Rust `str::parse` on a
string of digits (positional fold, most significant digit first). -/
def natOfDigits (ds : List Char) : Nat := ds.foldl (fun a c => 10 * a + digitVal c) 0

/-- `i64::MAX`: `str::parse::<i64>` succeeds on a digit string iff its value
is at most this bound. -/
def i64Max : Nat := 2 ^ 63 - 1

/-- `u64::MAX`: `str::parse::<u64>` succeeds on a digit string iff its value
is at most this bound. -/
def u64Max : Nat := 2 ^ 64 - 1

/-- The apostrophe character, written by code point to keep quoting simple. -/
def qc : Char := Char.ofNat 39

/-- nom `digit1`: the longest nonempty prefix of ASCII digits, or an error. -/
def digit1 (input : List Char) : Option (List Char × List Char) :=
  if input.takeWhile isDigitCh = [] then none
  else some (input.takeWhile isDigitCh, input.dropWhile isDigitCh)

/-- nom `multispace0`: drop the longest prefix of ASCII whitespace. -/
def multispace0 (input : List Char) : List Char := input.dropWhile isSpaceCh

namespace Ruststep

/-- Embeds `sign` of `ruststep/src/parser/token.rs`:
`alt((char('+'), char('-')))`. -/
def sign (input : List Char) : PResult Char :=
  match input with
  | c :: rest => if c = '+' || c = '-' then .ok c rest else .err
  | [] => .err

/-- nom `opt(sign)`: never fails, consumes the sign when present. -/
def optSign (input : List Char) : Option Char × List Char :=
  match sign input with
  | .ok c rest => (some c, rest)
  | _ => (none, input)

/-- Embeds `integer` of `ruststep/src/parser/token.rs`:
`tuple((opt(sign), multispace0, digit1))` followed by
`numbers.parse().expect("Failed to parse into integer")` — the `expect`
panics when the digit string exceeds `i64::MAX` — and negation on a `-`
sign.  The identical function appears in
`espr-runtime/src/parser/token.rs`. -/
def integer (input : List Char) : PResult Int :=
  let (s, r1) := optSign input
  let r2 := multispace0 r1
  match digit1 r2 with
  | none => .err
  | some (ds, r3) =>
    if natOfDigits ds ≤ i64Max then
      .ok (if s = some '-' then -(natOfDigits ds : Int) else (natOfDigits ds : Int)) r3
    else .panic

/-- Embeds `exponent` of `ruststep/src/parser/token.rs`:
`tuple((char('E'), multispace0, opt(sign), multispace0, digit1))` with the
same panicking `expect` conversion to `i64`. -/
def exponent (input : List Char) : PResult Int :=
  match input with
  | c :: r0 =>
    if c = 'E' then
      let r1 := multispace0 r0
      let (s, r2) := optSign r1
      let r3 := multispace0 r2
      match digit1 r3 with
      | none => .err
      | some (ds, r4) =>
        if natOfDigits ds ≤ i64Max then
          .ok (if s = some '-' then -(natOfDigits ds : Int) else (natOfDigits ds : Int)) r4
        else .panic
    else .err
  | [] => .err

/-- The components of a matched Part 21 real token.  The source converts
them to `f64` via `format!("{}.{}e{}", …).parse()`, which cannot fail on
digit strings; the float value itself is irrelevant to every claim, so the
embedding keeps the matched structure. -/
structure RealLit where
  sgn : Option Char
  integral : List Char
  fractional : List Char
  exp : Option Int
deriving DecidableEq, Repr

/-- Embeds `real` of `ruststep/src/parser/token.rs`:
`tuple((opt(sign), multispace0, digit1, char('.'), digit0, opt(exponent)))`.
The dot is mandatory; `opt(exponent)` backtracks on a recoverable error
and propagates failures and panics. -/
def real (input : List Char) : PResult RealLit :=
  let (s, r1) := optSign input
  let r2 := multispace0 r1
  match digit1 r2 with
  | none => .err
  | some (ds, r3) =>
    match r3 with
    | c :: r4 =>
      if c = '.' then
        let fs := r4.takeWhile isDigitCh
        let r5 := r4.dropWhile isDigitCh
        match exponent r5 with
        | .ok e r6 => .ok ⟨s, ds, fs, some e⟩ r6
        | .panic => .panic
        | .fail ctx => .fail ctx
        | .err => .ok ⟨s, ds, fs, none⟩ r5
      else .err
    | [] => .err

/-- Embeds the string-content loop of `string` in
`ruststep/src/parser/token.rs`:
`many0(map(tag("''"), |_| '\'').or(none_of("'")))` — at each step a doubled
apostrophe is read as a single apostrophe, otherwise any non-apostrophe
character is read, and the loop stops at a lone apostrophe or at the end of
input.  Returns the decoded content and the remaining input. -/
def stringContent : List Char → List Char × List Char
  | [] => ([], [])
  | [c] => if c = qc then ([], [c]) else ([c], [])
  | c1 :: c2 :: rest =>
    if c1 = qc then
      if c2 = qc then
        let (s, r) := stringContent rest
        (qc :: s, r)
      else ([], c1 :: c2 :: rest)
    else
      let (s, r) := stringContent (c2 :: rest)
      (c1 :: s, r)

/-- Embeds `string` of `ruststep/src/parser/token.rs`:
`tuple((char('\''), string_content, char('\'')))`. -/
def string (input : List Char) : PResult (List Char) :=
  match input with
  | c :: rest =>
    if c = qc then
      match stringContent rest with
      | (s, c2 :: r2) => if c2 = qc then .ok s r2 else .err
      | (_, []) => .err
    else .err
  | [] => .err

/-- Embeds `entity_instance_name` of `ruststep/src/parser/token.rs`:
`tuple((char('#'), digit1))` mapped through `str::parse::<u64>`; an
out-of-range value is turned into `u64_overflow`, a nom `Err::Failure`
carrying the context string `"u64-overflow"`. -/
def entity_instance_name (input : List Char) : PResult Nat :=
  match input with
  | c :: rest =>
    if c = '#' then
      match digit1 rest with
      | none => .err
      | some (ds, r) =>
        if natOfDigits ds ≤ u64Max then .ok (natOfDigits ds) r
        else .fail "u64-overflow"
    else .err
  | [] => .err

/-- Embeds `value_instance_name` of `ruststep/src/parser/token.rs`: as
`entity_instance_name` but introduced by `@`. -/
def value_instance_name (input : List Char) : PResult Nat :=
  match input with
  | c :: rest =>
    if c = '@' then
      match digit1 rest with
      | none => .err
      | some (ds, r) =>
        if natOfDigits ds ≤ u64Max then .ok (natOfDigits ds) r
        else .fail "u64-overflow"
    else .err
  | [] => .err

end Ruststep

namespace EsprRuntime

/-- Embeds `string` of `espr-runtime/src/parser/token.rs`:
`tuple((char('\''), many0(none_of("'")), char('\'')))`.  Note that, unlike
the grammar quoted in its own doc comment, this code gives no treatment to
the doubled-apostrophe escape: the content stops at the first apostrophe. -/
def string (input : List Char) : PResult (List Char) :=
  match input with
  | c :: rest =>
    if c = qc then
      match rest.dropWhile (fun x => x ≠ qc) with
      | c2 :: r2 =>
        if c2 = qc then .ok (rest.takeWhile (fun x => x ≠ qc)) r2 else .err
      | [] => .err
    else .err
  | [] => .err

/-- Embeds the decimal grammar recognized by nom's `double`
(`recognize_float`): optional sign, then either digits with an optional
`.`-and-optional-digits, or a `.` followed by digits, then an optional
exponent `e|E [sign] digits`.  Returns the consumed text (the `f64` value
is irrelevant to every claim).  The textual `inf`/`infinity`/`nan` forms
the library also accepts are omitted as no claim concerns them. -/
def recognizeFloat (input : List Char) : Option (List Char × List Char) :=
  let (s, r1) := Ruststep.optSign input
  let sgnTxt : List Char := match s with | some c => [c] | none => []
  let core : Option (List Char × List Char) :=
    match digit1 r1 with
    | some (ds, r2) =>
      match r2 with
      | c :: r3 =>
        if c = '.' then
          some (ds ++ '.' :: r3.takeWhile isDigitCh, r3.dropWhile isDigitCh)
        else some (ds, r2)
      | [] => some (ds, [])
    | none =>
      match r1 with
      | c :: r2 =>
        if c = '.' then
          match digit1 r2 with
          | some (fs, r3) => some ('.' :: fs, r3)
          | none => none
        else none
      | [] => none
  match core with
  | none => none
  | some (txt, r4) =>
    match r4 with
    | c :: r5 =>
      if c = 'e' || c = 'E' then
        let (es, r6) := Ruststep.optSign r5
        let esTxt : List Char := match es with | some ec => [ec] | none => []
        match digit1 r6 with
        | some (xs, r7) => some (sgnTxt ++ txt ++ c :: esTxt ++ xs, r7)
        | none => some (sgnTxt ++ txt, r4)
      else some (sgnTxt ++ txt, r4)
    | [] => some (sgnTxt ++ txt, [])

/-- Embeds `real` of `espr-runtime/src/parser/token.rs`:
`tuple((opt(sign), multispace0, double))`, negating on a `-` sign.  The
value is kept as the sign together with the text matched by `double`. -/
def real (input : List Char) : PResult (Option Char × List Char) :=
  let (s, r1) := Ruststep.optSign input
  let r2 := multispace0 r1
  match recognizeFloat r2 with
  | some (txt, r3) => .ok (s, txt) r3
  | none => .err

/-- Embeds `entity_instance_name` of `espr-runtime/src/parser/token.rs`:
`tuple((char('#'), digit1))` mapped to `name.to_string()` — the raw digit
text, with no conversion to `u64` and no treatment of leading zeros. -/
def entity_instance_name (input : List Char) : PResult (List Char) :=
  match input with
  | c :: rest =>
    if c = '#' then
      match digit1 rest with
      | none => .err
      | some (ds, r) => .ok ds r
    else .err
  | [] => .err

end EsprRuntime

namespace Espr

/-- ASCII upper-casing, as applied by a case-insensitive keyword matcher. -/
def upperCh (c : Char) : Char := c.toUpper

/-- Modelled from the spec: the keyword matcher supplied by the espr parser
utility module (the `tag` imported by `espr/src/parser/clause/derive.rs`
via `util::*`, which is not under `src/`).  Per the spec, "EXPRESS keywords
are matched case-insensitively at the keyword layer", so `tag(kw)` consumes
an input prefix of the keyword's length whose upper-casing equals the
keyword's upper-casing, and errs otherwise. -/
def kwTag (kw : List Char) (input : List Char) : PResult Unit :=
  if (input.take kw.length).map upperCh = kw.map upperCh then
    .ok () (input.drop kw.length)
  else .err

/-- Modelled from the spec: the EXPRESS identifier (`tag_name`) parser of
the espr parser basic module, which is not under `src/`: a letter followed
by letters and digits, returned verbatim — "user identifiers preserve
case". -/
def identifier (input : List Char) : PResult (List Char) :=
  match input with
  | c :: rest =>
    if c.isAlpha then
      .ok (c :: rest.takeWhile (fun x => x.isAlpha || isDigitCh x))
        (rest.dropWhile (fun x => x.isAlpha || isDigitCh x))
    else .err
  | [] => .err

/-- Embeds `derive_clause` of `espr/src/parser/clause/derive.rs`:
`tuple((tag("DERIVE"), space_separated(derived_attr)))`.  The attribute
list parser `space_separated(derived_attr)` depends on grammar productions
not under `src/`, so it is an opaque parameter. -/
def derive_clause (attrs : List Char → PResult α) (input : List Char) : PResult α :=
  match kwTag "DERIVE".toList input with
  | .ok _ rest => attrs rest
  | .err => .err
  | .fail ctx => .fail ctx
  | .panic => .panic

end Espr

namespace Ir

/-- Scope kinds, per the spec's data model (`espr` scope module, not under
`src/`): Schema, Entity, Type, Function, Procedure, Rule. -/
inductive ScopeType where
  | schema
  | entity
  | type
  | function
  | procedure
  | rule
deriving DecidableEq, Repr

/-- A Path: a scope (ordered (kind, name) pairs from the root), a kind and
a name, structurally equal, uniquely identifying a declaration. -/
structure Path where
  scope : List (ScopeType × String)
  ty : ScopeType
  name : String
deriving DecidableEq, Repr

/-- `Path::new(&scope, ScopeType::Entity, &entity.name)` as used by
`Constraints::new`: an entity path directly under a schema scope. -/
def entityPath (schemaName entityName : String) : Path :=
  ⟨[(ScopeType.schema, schemaName)], ScopeType.entity, entityName⟩

/-- The semantic error kinds of the legalize layer, per the spec's error
taxonomy (`SemanticError` itself is not under `src/`). -/
inductive SemanticError where
  | unresolvedName (name : String)
  | cyclicInheritance
  | duplicateAttribute (name : String)
  | invalidBound
  | malformedConstraint
deriving DecidableEq, Repr

/-- The `SUPERTYPE OF` constraint expression tree, per the spec's design
note: Leaf(name), OneOf(children), And(lhs, rhs), AndOr(lhs, rhs)
(`ast::Expr` for constraints is not under `src/`). -/
inductive ConstraintExpr where
  | leaf (name : String)
  | oneOf (children : List ConstraintExpr)
  | and (lhs rhs : ConstraintExpr)
  | andOr (lhs rhs : ConstraintExpr)

/-- The constraint clause carried by an entity AST.  `Constraints::new`
matches `Some(ast::Constraint::SuperTypeRule(expr))` and skips every other
form with a wildcard; `other` stands for those remaining forms (such as
abstract-supertype declarations). -/
inductive Constraint where
  | superTypeRule (expr : ConstraintExpr)
  | other

/-- The part of the entity AST that `Constraints::new` and
`Schema::legalize` read: its name and its optional constraint clause. -/
structure EntityAst where
  name : String
  constraint : Option Constraint

/-- A type declaration AST; its contents are irrelevant to the claims. -/
structure TypeDeclAst where
  name : String
deriving DecidableEq, Repr

/-- The part of the schema AST read by the embedded functions: its name and
its ordered entity and type-declaration collections. -/
structure SchemaAst where
  name : String
  entities : List EntityAst
  types : List TypeDeclAst

/-- A syntax tree: an ordered sequence of schemas. -/
structure SyntaxTree where
  schemas : List SchemaAst

/-- The Namespace, per the spec's design note "Namespace as index table"
(the namespace module is not under `src/`): declarations live in a flat
vector, `entries` gives the Path at each index, and `resolveIdx` is the
outward-walking `resolve` returning a declaration index or an
UnresolvedName error.  `Constraints::new` only reads these two facets. -/
structure Namespace where
  entries : List Path
  resolveIdx : List (ScopeType × String) → String → Except SemanticError Nat

mutual

/-- Modelled from the spec: `Instantiables::from_expr` (not under `src/`),
the fold of a `SUPERTYPE OF` expression described in spec §4.4:
a bare leaf name `a` resolves through the Namespace to a declaration index
`i` and yields `[[i]]`; `ONEOF(a, b, c, …)` yields the concatenation of its
children's bundle sequences `[[a], [b], [c], …]`; `A AND B` yields the
Cartesian product concatenating every bundle of A with every bundle of B;
`A ANDOR B` yields A's bundles, then B's bundles, then their Cartesian
product. -/
def fromExpr (resolve : String → Except SemanticError Nat) :
    ConstraintExpr → Except SemanticError (List (List Nat))
  | .leaf a =>
    match resolve a with
    | .ok i => .ok [[i]]
    | .error e => .error e
  | .oneOf cs => fromExprList resolve cs
  | .and l r =>
    match fromExpr resolve l with
    | .error e => .error e
    | .ok A =>
      match fromExpr resolve r with
      | .error e => .error e
      | .ok B => .ok (A.flatMap fun a => B.map fun b => a ++ b)
  | .andOr l r =>
    match fromExpr resolve l with
    | .error e => .error e
    | .ok A =>
      match fromExpr resolve r with
      | .error e => .error e
      | .ok B => .ok (A ++ B ++ A.flatMap fun a => B.map fun b => a ++ b)

/-- Modelled from the spec: the fold of `Instantiables::from_expr` over the
children of a `ONEOF`, concatenating their bundle sequences in order. -/
def fromExprList (resolve : String → Except SemanticError Nat) :
    List ConstraintExpr → Except SemanticError (List (List Nat))
  | [] => .ok []
  | c :: cs =>
    match fromExpr resolve c with
    | .error e => .error e
    | .ok A =>
      match fromExprList resolve cs with
      | .error e => .error e
      | .ok B => .ok (A ++ B)

end

/-- The constraints table.  The source's `HashMap<Path, Vec<Vec<Path>>>` is
built by `collect()` from a vector of pairs; the embedding keeps that
underlying ordered vector of `(supertype path, bundle list)` pairs. -/
structure Constraints where
  instantiables : List (Path × List (List Path))
deriving DecidableEq, Repr

/-- `Constraints::is_supertype`: `self.instantiables.contains_key(path)`. -/
def Constraints.is_supertype (c : Constraints) (path : Path) : Bool :=
  c.instantiables.any fun q => decide (q.1 = path)

/-- The inner loop of `Constraints::new` over one schema's entities: an
entity whose constraint matches `Some(ast::Constraint::SuperTypeRule(expr))`
contributes `(Path::new(scope, Entity, name), Instantiables::from_expr(…))`,
every other entity is skipped (`_ => continue`). -/
def collectEntities (ns : Namespace) (scope : List (ScopeType × String)) :
    List EntityAst → Except SemanticError (List (Path × List (List Nat)))
  | [] => .ok []
  | ent :: rest =>
    match ent.constraint with
    | some (.superTypeRule expr) =>
      match fromExpr (ns.resolveIdx scope) expr with
      | .error e => .error e
      | .ok it =>
        match collectEntities ns scope rest with
        | .error e => .error e
        | .ok tail => .ok ((⟨scope, ScopeType.entity, ent.name⟩, it) :: tail)
    | _ => collectEntities ns scope rest

/-- The outer loop of `Constraints::new` over the schemas of the syntax
tree, with `scope = root.schema(&schema.name)`. -/
def collectSchemas (ns : Namespace) :
    List SchemaAst → Except SemanticError (List (Path × List (List Nat)))
  | [] => .ok []
  | schema :: rest =>
    match collectEntities ns [(ScopeType.schema, schema.name)] schema.entities with
    | .error e => .error e
    | .ok here =>
      match collectSchemas ns rest with
      | .error e => .error e
      | .ok tail => .ok (here ++ tail)

/-- `ns[*index]` of `Constraints::new`: the Path stored at a declaration
index of the namespace's flat vector.  The Rust indexing would panic on an
out-of-range index; the embedding totalizes it with a default path, which
no theorem relies on. -/
def pathAt (ns : Namespace) (index : Nat) : Path :=
  ns.entries.getD index ⟨[], ScopeType.entity, ""⟩

/-- Embeds `Constraints::new` of `espr/src/ir/constraints.rs`: walk every
schema's entities collecting the `SUPERTYPE OF` rules (`collectEntities`,
`collectSchemas`), then replace every declaration index in every bundle by
its Path via the namespace. -/
def Constraints.new (ns : Namespace) (st : SyntaxTree) : Except SemanticError Constraints :=
  match collectSchemas ns st.schemas with
  | .error e => .error e
  | .ok pairs =>
    .ok ⟨pairs.map fun pr => (pr.1, pr.2.map fun bundle => bundle.map (pathAt ns))⟩

/-- A legalized schema, as far as `Schema::legalize` itself is concerned:
the schema name with the legalized entity and type lists.  The entity and
type IR element types are parameters because `Entity::legalize` and
`TypeDecl::legalize` are not under `src/`. -/
structure SchemaIr (E T : Type) where
  name : String
  entities : List E
  types : List T
deriving DecidableEq, Repr

/-- Rust's `iter().map(f).collect::<Result<Vec<_>, _>>()`: apply `f` to
every element in order, stopping at the first error. -/
def collectExcept (f : α → Except ε β) : List α → Except ε (List β)
  | [] => .ok []
  | x :: xs =>
    match f x with
    | .error e => .error e
    | .ok y =>
      match collectExcept f xs with
      | .error e => .error e
      | .ok ys => .ok (y :: ys)

/-- Embeds `Schema::legalize` of `espr/src/semantics/schema.rs`: legalize
every entity of the schema in order, then every type declaration in order,
each short-circuiting on the first error via `collect::<Result<…>>` and
`?`, and assemble the full schema.  `legE` and `legT` stand for
`Entity::legalize(ns, &here, _)` and `TypeDecl::legalize(ns, &here, _)`
(with `here = scope.pushed(Schema, name)`), which are not under `src/` and
are therefore opaque parameters. -/
def Schema.legalize (legE : EntityAst → Except SemanticError E)
    (legT : TypeDeclAst → Except SemanticError T) (schema : SchemaAst) :
    Except SemanticError (SchemaIr E T) :=
  match collectExcept legE schema.entities with
  | .error e => .error e
  | .ok es =>
    match collectExcept legT schema.types with
    | .error e => .error e
    | .ok ts => .ok ⟨schema.name, es, ts⟩

/-- The first error of a list of results, in order. -/
def firstError : List (Except ε β) → Option ε
  | [] => none
  | .error e :: _ => some e
  | .ok _ :: rest => firstError rest

/-- The error of a result, if any. -/
def errOf : Except ε β → Option ε
  | .error e => some e
  | .ok _ => none

/-- The first present element of a list of optional errors, in order. -/
def firstSome : List (Option ε) → Option ε
  | [] => none
  | some e :: _ => some e
  | none :: rest => firstSome rest

/-- The success values of a list of results. -/
def okValues (l : List (Except ε β)) : List β :=
  l.filterMap fun r => match r with | .ok y => some y | .error _ => none

end Ir

/-- The Part 21 string encoder of the spec's apostrophe-escape law: every
apostrophe of the content is written as two apostrophes. -/
def encodeApos (s : List Char) : List Char :=
  s.flatMap fun c => if c = qc then [qc, qc] else [c]

namespace Example

/-- Scope of the example schema `test_schema`. -/
def exScope : List (Ir.ScopeType × String) := [(Ir.ScopeType.schema, "test_schema")]

/-- Entity paths of the `SUPERTYPE OF (ONEOF(male,female) AND
ONEOF(citizen,alien))` example schema. -/
def personP : Ir.Path := Ir.entityPath "test_schema" "person"

/-- Path of entity `male` in the example schema. -/
def maleP : Ir.Path := Ir.entityPath "test_schema" "male"

/-- Path of entity `female` in the example schema. -/
def femaleP : Ir.Path := Ir.entityPath "test_schema" "female"

/-- Path of entity `citizen` in the example schema. -/
def citizenP : Ir.Path := Ir.entityPath "test_schema" "citizen"

/-- Path of entity `alien` in the example schema. -/
def alienP : Ir.Path := Ir.entityPath "test_schema" "alien"

/-- Namespace of the example schema: the flat declaration vector and the
name resolver (indices in declaration order, as the namespace builder would
assign them). -/
def exNs : Ir.Namespace :=
  ⟨[personP, maleP, femaleP, citizenP, alienP], fun _ n =>
    if n = "person" then .ok 0
    else if n = "male" then .ok 1
    else if n = "female" then .ok 2
    else if n = "citizen" then .ok 3
    else if n = "alien" then .ok 4
    else .error (.unresolvedName n)⟩

/-- The constraint expression `ONEOF(male,female) AND ONEOF(citizen,alien)`. -/
def exExpr : Ir.ConstraintExpr :=
  .and (.oneOf [.leaf "male", .leaf "female"]) (.oneOf [.leaf "citizen", .leaf "alien"])

/-- The AST of `ENTITY person SUPERTYPE OF (ONEOF(male,female) AND
ONEOF(citizen,alien));`. -/
def exPerson : Ir.EntityAst := ⟨"person", some (.superTypeRule exExpr)⟩

/-- The example schema: `person` with its four subtype entities (the schema
of the `constraint_and` test in `espr/src/ir/constraints.rs`). -/
def exSchema : Ir.SchemaAst :=
  ⟨"test_schema",
   [exPerson, ⟨"male", none⟩, ⟨"female", none⟩, ⟨"citizen", none⟩, ⟨"alien", none⟩],
   []⟩

/-- The example syntax tree holding the example schema. -/
def exSt : Ir.SyntaxTree := ⟨[exSchema]⟩

/-- The bundle list the claim expects for the example. -/
def exBundles : List (List Ir.Path) :=
  [[maleP, citizenP], [maleP, alienP], [femaleP, citizenP], [femaleP, alienP]]

end Example

deriving instance DecidableEq for Except

/-! ## Supporting lemmas -/

theorem takeWhile_append_all {α : Type} {p : α → Bool} {xs : List α} (ys : List α)
    (h : ∀ x ∈ xs, p x = true) : (xs ++ ys).takeWhile p = xs ++ ys.takeWhile p := by
  induction xs with
  | nil => simp
  | cons c cs ih =>
    simp only [List.cons_append, List.takeWhile_cons, h c (by simp)]
    simpa using ih fun x hx => h x (by simp [hx])

theorem dropWhile_append_all {α : Type} {p : α → Bool} {xs : List α} (ys : List α)
    (h : ∀ x ∈ xs, p x = true) : (xs ++ ys).dropWhile p = ys.dropWhile p := by
  induction xs with
  | nil => simp
  | cons c cs ih =>
    simp only [List.cons_append, List.dropWhile_cons, h c (by simp)]
    simpa using ih fun x hx => h x (by simp [hx])

theorem foldlDigits_replicate_zero (k : Nat) :
    (List.replicate k '0').foldl (fun a c => 10 * a + digitVal c) 0 = 0 := by
  induction k with
  | zero => rfl
  | succ n ih => simpa [List.replicate_succ, digitVal] using ih

theorem natOfDigits_replicate_zero (k : Nat) (ds : List Char) :
    natOfDigits (List.replicate k '0' ++ ds) = natOfDigits ds := by
  unfold natOfDigits
  rw [List.foldl_append, foldlDigits_replicate_zero]

theorem not_space_of_digit {c : Char} (h : isDigitCh c = true) : isSpaceCh c = false := by
  have h0 : c ≠ ' ' := by rintro rfl; exact absurd h (by decide)
  have h1 : c ≠ '\t' := by rintro rfl; exact absurd h (by decide)
  have h2 : c ≠ '\r' := by rintro rfl; exact absurd h (by decide)
  have h3 : c ≠ '\n' := by rintro rfl; exact absurd h (by decide)
  simp [isSpaceCh, h0, h1, h2, h3]

theorem digit1_append_stop {ds rest : List Char} (hne : ds ≠ [])
    (h : ∀ c ∈ ds, isDigitCh c = true) (hr : rest.takeWhile isDigitCh = []) :
    digit1 (ds ++ rest) = some (ds, rest) := by
  have ht : (ds ++ rest).takeWhile isDigitCh = ds := by
    rw [takeWhile_append_all rest h, hr, List.append_nil]
  have hd : (ds ++ rest).dropWhile isDigitCh = rest := by
    rw [dropWhile_append_all rest h]
    have := List.takeWhile_append_dropWhile isDigitCh rest
    rw [hr] at this
    simpa using this
  simp [digit1, ht, hd, hne]

theorem digit1_all {ds : List Char} (hne : ds ≠ []) (h : ∀ c ∈ ds, isDigitCh c = true) :
    digit1 ds = some (ds, []) := by
  have h2 : digit1 (ds ++ []) = some (ds, []) := digit1_append_stop hne h (by simp)
  simpa using h2
/-! ## Part 21 string: apostrophe escape (claim C2) -/

/-- Unfolding of the apostrophe encoder on a cons cell. -/
theorem encodeApos_cons (c : Char) (s : List Char) :
    encodeApos (c :: s) = (if c = qc then [qc, qc] else [c]) ++ encodeApos s := by
  simp [encodeApos]

/-- The string-content loop of ruststep's `string` decodes an
apostrophe-encoded text completely, stopping exactly at the closing
apostrophe. -/
theorem stringContent_encode (s : List Char) :
    Ruststep.stringContent (encodeApos s ++ [qc]) = (s, [qc]) := by
  induction s with
  | nil => simp [encodeApos, Ruststep.stringContent]
  | cons c s' ih =>
    by_cases hc : c = qc
    · subst hc
      rw [encodeApos_cons]
      simp only [if_pos rfl, List.append_assoc, List.cons_append, List.nil_append]
      simp [Ruststep.stringContent, ih]
    · rw [encodeApos_cons]
      simp only [if_neg hc, List.cons_append, List.nil_append]
      rcases h2 : encodeApos s' ++ [qc] with _ | ⟨y, t⟩
      · exact absurd h2 (by simp)
      · simp only [Ruststep.stringContent, if_neg hc]
        rw [← h2, ih]

/-- Apostrophe-escape round trip for ruststep's Part 21 `string` parser:
encoding any content (every apostrophe doubled), wrapping it in
apostrophes and parsing yields exactly the content, with no input left. -/
theorem rs_string_roundtrip (s : List Char) :
    Ruststep.string (qc :: encodeApos s ++ [qc]) = .ok s [] := by
  have h := stringContent_encode s
  simp [Ruststep.string, h]

/-- Claim C2 (code bug evidence): on the spec's own example, the
espr-runtime Part 21 `string` parser — whose doc comment, like the spec,
gives the doubled-apostrophe escape — stops at the first apostrophe of
`'o''clock'` and returns `o`, leaving `'clock'` unconsumed, instead of the
four-character content `o'clock`. -/
theorem espr_string_drops_escape :
    EsprRuntime.string
        (qc :: 'o' :: qc :: qc :: 'c' :: 'l' :: 'o' :: 'c' :: 'k' :: [qc]) =
      .ok ['o'] (qc :: 'c' :: 'l' :: 'o' :: 'c' :: 'k' :: [qc]) := by
  decide

/-! ## Part 21 real versus integer (claims C3, C7, C10) -/

/-- `opt(sign)` leaves a suffix of its input. -/
theorem optSign_suffix (input : List Char) : (Ruststep.optSign input).2 <:+ input := by
  unfold Ruststep.optSign Ruststep.sign
  cases input with
  | nil => simp
  | cons c rest =>
    by_cases hc : c = '+' || c = '-'
    · simp [hc, List.suffix_cons]
    · simp [hc]

/-- Ruststep's Part 21 `real` parser rejects every input without a dot. -/
theorem rs_real_requires_dot (input : List Char) (h : '.' ∉ input) : Ruststep.real input = .err := by
  have hs1 : (Ruststep.optSign input).2 <:+ input := optSign_suffix input
  have hs2 : multispace0 (Ruststep.optSign input).2 <:+ input :=
    (List.dropWhile_suffix _).trans hs1
  unfold Ruststep.real
  rcases hov : Ruststep.optSign input with ⟨s, r1⟩
  rw [hov] at hs2
  simp only
  rcases hd : digit1 (multispace0 r1) with _ | ⟨ds, r3⟩
  · rfl
  · have hr3 : r3 <:+ input := by
      have : r3 = (multispace0 r1).dropWhile isDigitCh := by
        unfold digit1 at hd
        by_cases he : (multispace0 r1).takeWhile isDigitCh = [] <;> simp [he] at hd
        exact hd.2.symm
      rw [this]
      exact (List.dropWhile_suffix _).trans hs2
    rcases r3 with _ | ⟨c, r4⟩
    · rfl
    · have hcmem : c ∈ input := hr3.sublist.mem (by simp)
      have hcne : ¬(c = '.') := fun hc => h (hc ▸ hcmem)
      simp [hcne]

/-- A whitespace character is not a dot. -/
theorem not_dot_of_space {c : Char} (h : isSpaceCh c = true) : c ≠ '.' := by
  rintro rfl; exact absurd h (by decide)

/-- A digit character is not a dot. -/
theorem not_dot_of_digit {c : Char} (h : isDigitCh c = true) : c ≠ '.' := by
  rintro rfl; exact absurd h (by decide)

/-- `opt(sign)` consumes a prefix of sign characters. -/
theorem optSign_split (input : List Char) :
    ∃ pre, input = pre ++ (Ruststep.optSign input).2 ∧ ∀ c ∈ pre, c = '+' ∨ c = '-' := by
  unfold Ruststep.optSign Ruststep.sign
  cases input with
  | nil => exact ⟨[], by simp⟩
  | cons c rest =>
    by_cases hc : c = '+' || c = '-'
    · refine ⟨[c], by simp [hc], ?_⟩
      intro x hx
      rw [List.mem_singleton] at hx
      subst hx
      simpa using hc
    · exact ⟨[], by simp [hc]⟩

/-- What `digit1` consumed is a digit prefix of its input. -/
theorem digit1_split {input ds r : List Char} (h : digit1 input = some (ds, r)) :
    input = ds ++ r ∧ ∀ c ∈ ds, isDigitCh c = true := by
  unfold digit1 at h
  by_cases he : input.takeWhile isDigitCh = [] <;> simp [he] at h
  obtain ⟨h1, h2⟩ := h
  subst h1; subst h2
  exact ⟨(List.takeWhile_append_dropWhile _ _).symm, fun c hc => List.mem_takeWhile_imp hc⟩

/-- The Part 21 `integer` parser never consumes a dot: everything it reads
(sign, whitespace, digits) differs from the dot, which therefore stays in
the remaining input. -/
theorem rs_integer_consumes_no_dot (input : List Char) (v : Int) (rest : List Char)
    (h : Ruststep.integer input = .ok v rest) :
    ∃ consumed, input = consumed ++ rest ∧ '.' ∉ consumed := by
  obtain ⟨pre, hpre, hprec⟩ := optSign_split input
  rcases hov : Ruststep.optSign input with ⟨s, r1⟩
  rw [hov] at hpre
  unfold Ruststep.integer at h
  rw [hov] at h
  dsimp only at h
  rcases hd : digit1 (multispace0 r1) with _ | ⟨ds, r3⟩ <;> rw [hd] at h <;> dsimp only at h
  · exact absurd h (by simp)
  · by_cases hb : natOfDigits ds ≤ i64Max
    · rw [if_pos hb] at h
      have hrest : r3 = rest := by
        simpa using congrArg (fun x => match x with | PResult.ok _ r => r | _ => []) h
      obtain ⟨hsplit, hdig⟩ := digit1_split hd
      have hms : r1.takeWhile isSpaceCh ++ multispace0 r1 = r1 := by
        unfold multispace0
        exact List.takeWhile_append_dropWhile _ _
      have hr1 : r1 = r1.takeWhile isSpaceCh ++ (ds ++ r3) := by
        conv_lhs => rw [← hms]
        rw [hsplit]
      refine ⟨pre ++ r1.takeWhile isSpaceCh ++ ds, ?_, ?_⟩
      · rw [hpre]
        dsimp only
        conv_lhs => rw [hr1]
        rw [hrest]
        simp
      · intro hmem
        simp only [List.mem_append] at hmem
        rcases hmem with (hm | hm) | hm
        · rcases hprec _ hm with h1 | h1 <;> simp at h1
        · exact not_dot_of_space (List.mem_takeWhile_imp hm) rfl
        · exact not_dot_of_digit (hdig _ hm) rfl
    · rw [if_neg hb] at h
      exact absurd h (by simp)

/-- Claim C3 (code bug evidence): the espr-runtime Part 21 `real` parser,
built on nom's `double`, accepts the dot-less input `123` and consumes it
entirely, although its own doc comment and the spec make the dot
mandatory.  (Ruststep's `real` correctly rejects every dot-less input, see
`rs_real_requires_dot`, and its `integer` never consumes a dot, see
`rs_integer_consumes_no_dot`.) -/
theorem espr_real_accepts_dotless :
    EsprRuntime.real "123".toList = .ok (none, "123".toList) [] := by
  decide

/-- Claim C7 (code bug evidence): the Part 21 `integer` token parser does
not return an error on the out-of-range input `9223372036854775808`
(`i64::MAX + 1`): its `expect` conversion panics, so the panic branch is
reachable, contradicting the claim that out-of-range integers yield an
ordinary `LexError`. -/
theorem integer_overflow_panics :
    Ruststep.integer "9223372036854775808".toList = .panic := by
  decide
/-! ## Part 21 references (claims C4, C5) -/

/-- Claim C4 (amended): ruststep's `entity_instance_name` parses `#d`, for
`d` any decimal digit string whose value is `N` at most `u64::MAX`, to the
unsigned 64-bit identifier `N`, and prefixing any number of extra leading
zeros leaves the identifier unchanged — `#001` and `#1` denote the same
identifier. -/
theorem rs_entity_instance_name_ok (N : Nat) (ds : List Char)
    (hd : ∀ c ∈ ds, isDigitCh c = true) (hne : ds ≠ []) (hval : natOfDigits ds = N)
    (hbound : N ≤ u64Max) :
    Ruststep.entity_instance_name ('#' :: ds) = .ok N [] ∧
    ∀ k, Ruststep.entity_instance_name ('#' :: (List.replicate k '0' ++ ds)) = .ok N [] := by
  constructor
  · simp [Ruststep.entity_instance_name, digit1_all hne hd, hval, hbound]
  · intro k
    have hd2 : ∀ c ∈ List.replicate k '0' ++ ds, isDigitCh c = true := by
      intro c hc
      rcases List.mem_append.1 hc with h | h
      · rw [List.eq_of_mem_replicate h]; decide
      · exact hd c h
    have hne2 : List.replicate k '0' ++ ds ≠ [] := by simp [hne]
    simp [Ruststep.entity_instance_name, digit1_all hne2 hd2,
      natOfDigits_replicate_zero, hval, hbound]

/-- Witness for claim C4's theorem at `#001`, whose value is 1. -/
theorem rs_entity_instance_name_ok_witness :
    Ruststep.entity_instance_name ('#' :: ['0', '0', '1']) = .ok 1 [] :=
  (rs_entity_instance_name_ok 1 ['0', '0', '1'] (by decide) (by decide) (by decide)
    (by decide)).1

/-- Claim C4 counterexample: the espr-runtime `entity_instance_name`
parser, one of the claim's cited symbols, returns the raw digit string
with no conversion to `u64`, so `#001` and `#1` do not denote the same
identifier there. -/
theorem espr_entity_name_keeps_zeros :
    EsprRuntime.entity_instance_name "#001".toList = .ok "001".toList []
    ∧ EsprRuntime.entity_instance_name "#1".toList = .ok "1".toList []
    ∧ "001".toList ≠ "1".toList :=
  ⟨by decide, by decide, by decide⟩

/-- Claim C5: on any digit string whose value exceeds `u64::MAX`, both
`entity_instance_name` (`#d`) and `value_instance_name` (`@d`) fail with
the non-recoverable u64-overflow (ReferenceOverflow) error — they neither
succeed nor panic. -/
theorem rs_reference_overflow (ds : List Char)
    (hd : ∀ c ∈ ds, isDigitCh c = true) (hov : u64Max < natOfDigits ds) :
    Ruststep.entity_instance_name ('#' :: ds) = .fail "u64-overflow" ∧
    Ruststep.value_instance_name ('@' :: ds) = .fail "u64-overflow" := by
  have hne : ds ≠ [] := by rintro rfl; exact absurd hov (by decide)
  have hnle : ¬(natOfDigits ds ≤ u64Max) := not_le.mpr hov
  refine ⟨?_, ?_⟩ <;>
    simp [Ruststep.entity_instance_name, Ruststep.value_instance_name,
      digit1_all hne hd, hnle]

/-- Witness for claim C5's theorem at `#18446744073709551616`
(`u64::MAX + 1`). -/
theorem rs_reference_overflow_witness :
    Ruststep.entity_instance_name ('#' :: "18446744073709551616".toList) =
      .fail "u64-overflow" :=
  (rs_reference_overflow "18446744073709551616".toList (by decide) (by decide)).1

/-! ## Whitespace between sign and digits (claim C10) -/

/-- A digit character is not a sign character. -/
theorem not_sign_of_digit {c : Char} (h : isDigitCh c = true) :
    (c = '+' || c = '-') = false := by
  have h1 : c ≠ '+' := by rintro rfl; exact absurd h (by decide)
  have h2 : c ≠ '-' := by rintro rfl; exact absurd h (by decide)
  simp [h1, h2]

/-- `opt(sign)` on input beginning with a minus consumes the minus. -/
theorem optSign_neg (l : List Char) : Ruststep.optSign ('-' :: l) = (some '-', l) := by
  simp [Ruststep.optSign, Ruststep.sign]

/-- `opt(sign)` consumes nothing when the input starts with a digit. -/
theorem optSign_of_digits {ds : List Char} (h : ∀ c ∈ ds, isDigitCh c = true) :
    Ruststep.optSign ds = (none, ds) := by
  cases ds with
  | nil => rfl
  | cons d rest =>
    simp [Ruststep.optSign, Ruststep.sign, not_sign_of_digit (h d (by simp))]

/-- Whitespace skipping does not touch a digit string. -/
theorem dropSpace_of_digits {ds : List Char} (h : ∀ c ∈ ds, isDigitCh c = true) :
    ds.dropWhile isSpaceCh = ds := by
  cases ds with
  | nil => rfl
  | cons d rest => simp [List.dropWhile_cons, not_space_of_digit (h d (by simp))]

/-- `multispace0` skips exactly a whitespace prefix. -/
theorem multispace0_skip {ws : List Char} (l : List Char)
    (hws : ∀ c ∈ ws, isSpaceCh c = true) (hl : l.dropWhile isSpaceCh = l) :
    multispace0 (ws ++ l) = l := by
  unfold multispace0
  rw [dropWhile_append_all l hws, hl]

/-- Claim C10: the Part 21 `integer` and `real` parsers accept and skip
any amount of ASCII whitespace between an explicit sign and the following
digits (`tuple((opt(sign), multispace0, …))`), for ruststep's `integer`
and `real` and espr-runtime's `real`; espr-runtime's `integer` is textually
identical to ruststep's. -/
theorem sign_space_digits (ws ds : List Char)
    (hws : ∀ c ∈ ws, isSpaceCh c = true) (hds : ∀ c ∈ ds, isDigitCh c = true)
    (hne : ds ≠ []) (hbound : natOfDigits ds ≤ i64Max) :
    Ruststep.integer ('-' :: (ws ++ ds)) = .ok (-(natOfDigits ds : Int)) [] ∧
    Ruststep.real ('-' :: (ws ++ (ds ++ ['.']))) = .ok ⟨some '-', ds, [], none⟩ [] ∧
    EsprRuntime.real ('-' :: (ws ++ ds)) = .ok (some '-', ds) [] := by
  have hms : multispace0 (ws ++ ds) = ds :=
    multispace0_skip ds hws (dropSpace_of_digits hds)
  refine ⟨?_, ?_, ?_⟩
  · unfold Ruststep.integer
    rw [optSign_neg]
    dsimp only
    rw [hms, digit1_all hne hds]
    simp [hbound]
  · unfold Ruststep.real
    rw [optSign_neg]
    dsimp only
    have hms2 : multispace0 (ws ++ (ds ++ ['.'])) = ds ++ ['.'] := by
      apply multispace0_skip _ hws
      cases ds with
      | nil => decide
      | cons d rest =>
        have hd : isSpaceCh d = false := not_space_of_digit (hds d (by simp))
        simp [List.dropWhile_cons, hd]
    rw [hms2, digit1_append_stop hne hds (by decide)]
    dsimp only
    simp [Ruststep.exponent]
  · unfold EsprRuntime.real
    rw [optSign_neg]
    dsimp only
    rw [hms]
    unfold EsprRuntime.recognizeFloat
    rw [optSign_of_digits hds]
    dsimp only
    rw [digit1_all hne hds]
    dsimp only
    rfl

/-- Witness for claim C10's theorem: `- 12` parses as the integer -12. -/
theorem sign_space_digits_witness :
    Ruststep.integer ('-' :: ([' '] ++ ['1', '2'])) =
      .ok (-(natOfDigits ['1', '2'] : Int)) [] :=
  (sign_space_digits [' '] ['1', '2'] (by decide) (by decide) (by decide) (by decide)).1

/-! ## EXPRESS keyword case folding (claim C6) -/

/-- Claim C6: the EXPRESS keyword layer matches keywords
case-insensitively — any spelling whose upper-casing is the keyword's is
consumed, so `derive_clause` accepts `derive`, `Derive` and `DERIVE`
alike — while the identifier parser returns the consumed characters
verbatim, preserving their case. -/
theorem keyword_case_insensitive :
    (∀ (kw s rest : List Char), s.map Espr.upperCh = kw.map Espr.upperCh →
      Espr.kwTag kw (s ++ rest) = .ok () rest)
    ∧ (∀ (attrs : List Char → PResult Unit) (s rest : List Char),
      s.map Espr.upperCh = "DERIVE".toList.map Espr.upperCh →
      Espr.derive_clause attrs (s ++ rest) = attrs rest)
    ∧ (∀ (input v rest : List Char), Espr.identifier input = .ok v rest →
      input = v ++ rest) := by
  have hmain : ∀ (kw s rest : List Char), s.map Espr.upperCh = kw.map Espr.upperCh →
      Espr.kwTag kw (s ++ rest) = .ok () rest := by
    intro kw s rest h
    have hlen : s.length = kw.length := by
      have := congrArg List.length h
      simpa using this
    unfold Espr.kwTag
    rw [List.take_left' hlen, List.drop_left' hlen, if_pos h]
  refine ⟨hmain, ?_, ?_⟩
  · intro attrs s rest h
    unfold Espr.derive_clause
    rw [hmain _ s rest h]
  · intro input v rest h
    cases input with
    | nil => exact absurd h (by simp [Espr.identifier])
    | cons c cs =>
      unfold Espr.identifier at h
      dsimp only at h
      by_cases ha : c.isAlpha
      · rw [if_pos ha] at h
        injection h with hv hr
        rw [← hv, ← hr]
        simp [List.takeWhile_append_dropWhile]
      · rw [if_neg ha] at h
        exact absurd h (by simp)

/-- Witness for claim C6's theorem: lower-case `derive` is consumed as the
DERIVE keyword. -/
theorem keyword_case_insensitive_witness :
    Espr.kwTag "DERIVE".toList ("derive".toList ++ ['x']) = .ok () ['x'] :=
  keyword_case_insensitive.1 "DERIVE".toList "derive".toList ['x'] (by decide)
/-! ## Legalizer failure semantics (claim C8) -/

/-- The first present error of a concatenation. -/
theorem firstSome_append {e : Type} (A B : List (Option e)) :
    Ir.firstSome (A ++ B) =
      match Ir.firstSome A with
      | some x => some x
      | none => Ir.firstSome B := by
  induction A with
  | nil => simp [Ir.firstSome]
  | cons x xs ih => cases x <;> simp [Ir.firstSome, ih]

/-- The first present error among the projections is the first error of
the results. -/
theorem firstSome_map_errOf {e b : Type} (l : List (Except e b)) :
    Ir.firstSome (l.map Ir.errOf) = Ir.firstError l := by
  induction l with
  | nil => simp [Ir.firstSome, Ir.firstError]
  | cons x xs ih => cases x <;> simp [Ir.firstSome, Ir.firstError, Ir.errOf, ih]

/-- `collect::<Result<Vec<_>, _>>` returns the first error of the mapped
results, in order, and otherwise all success values. -/
theorem collectExcept_eq {a e b : Type} (f : a → Except e b) (l : List a) :
    Ir.collectExcept f l =
      match Ir.firstError (l.map f) with
      | some x => .error x
      | none => .ok (Ir.okValues (l.map f)) := by
  induction l with
  | nil => simp [Ir.collectExcept, Ir.firstError, Ir.okValues]
  | cons x xs ih =>
    cases hfx : f x with
    | error z => simp [Ir.collectExcept, hfx, Ir.firstError, Ir.okValues]
    | ok y =>
      rw [Ir.collectExcept, hfx, ih]
      cases hh : Ir.firstError (xs.map f) <;>
        simp [Ir.firstError, Ir.okValues, hfx, hh]

/-- `Schema::legalize` equals: report the first error among the entity
legalizations (in order) followed by the type legalizations (in order),
and otherwise assemble the complete legalized schema. -/
theorem legalize_eq {E T : Type} (legE : Ir.EntityAst → Except Ir.SemanticError E)
    (legT : Ir.TypeDeclAst → Except Ir.SemanticError T) (schema : Ir.SchemaAst) :
    Ir.Schema.legalize legE legT schema =
      match Ir.firstSome ((schema.entities.map fun ent => Ir.errOf (legE ent)) ++
          (schema.types.map fun t => Ir.errOf (legT t))) with
      | some e => .error e
      | none => .ok ⟨schema.name, Ir.okValues (schema.entities.map legE),
          Ir.okValues (schema.types.map legT)⟩ := by
  have hA : (schema.entities.map fun ent => Ir.errOf (legE ent)) =
      (schema.entities.map legE).map Ir.errOf := by simp
  have hB : (schema.types.map fun t => Ir.errOf (legT t)) =
      (schema.types.map legT).map Ir.errOf := by simp
  rw [hA, hB, firstSome_append, firstSome_map_errOf, firstSome_map_errOf]
  unfold Ir.Schema.legalize
  rw [collectExcept_eq legE schema.entities, collectExcept_eq legT schema.types]
  cases hfa : Ir.firstError (schema.entities.map legE) <;>
    cases hfb : Ir.firstError (schema.types.map legT) <;> dsimp only

/-- Claim C8: for any entity and type-declaration legalizers,
`Schema::legalize` returns exactly the first `SemanticError` encountered in
its traversal order — every entity in source order, then every type
declaration in source order — and when no error occurs it returns the
fully legalized schema built from all elements; it never returns a partial
schema. -/
theorem legalize_first_error {E T : Type} (legE : Ir.EntityAst → Except Ir.SemanticError E)
    (legT : Ir.TypeDeclAst → Except Ir.SemanticError T) (schema : Ir.SchemaAst) :
    (∀ e, Ir.firstSome ((schema.entities.map fun ent => Ir.errOf (legE ent)) ++
        (schema.types.map fun t => Ir.errOf (legT t))) = some e →
      Ir.Schema.legalize legE legT schema = .error e)
    ∧ (Ir.firstSome ((schema.entities.map fun ent => Ir.errOf (legE ent)) ++
        (schema.types.map fun t => Ir.errOf (legT t))) = none →
      Ir.Schema.legalize legE legT schema =
        .ok ⟨schema.name, Ir.okValues (schema.entities.map legE),
          Ir.okValues (schema.types.map legT)⟩) := by
  have heq := legalize_eq legE legT schema
  constructor
  · intro e he
    rw [heq, he]
  · intro he
    rw [heq, he]

/-- Witness for claim C8's theorem: a schema whose second entity and whose
type declaration both fail legalizes to the entity's error, the first one
encountered. -/
theorem legalize_first_error_witness :
    Ir.Schema.legalize
      (fun ent => if ent.name = "bad" then Except.error Ir.SemanticError.cyclicInheritance
        else Except.ok ())
      (fun t => if t.name = "worse" then Except.error Ir.SemanticError.invalidBound
        else Except.ok ())
      ⟨"s", [⟨"good", none⟩, ⟨"bad", none⟩], [⟨"worse"⟩]⟩ =
      .error Ir.SemanticError.cyclicInheritance :=
  (legalize_first_error _ _ _).1 Ir.SemanticError.cyclicInheritance (by decide)

/-! ## Constraint analyzer (claims C9, C1) -/

/-- The pairs collected over one schema's entities are keyed exactly by
the entities carrying a `SUPERTYPE OF` rule. -/
theorem collectEntities_keys (ns : Ir.Namespace) (scope : List (Ir.ScopeType × String))
    (es : List Ir.EntityAst) (pairs : List (Ir.Path × List (List Nat)))
    (h : Ir.collectEntities ns scope es = .ok pairs) (p : Ir.Path) :
    (∃ v, (p, v) ∈ pairs) ↔
      ∃ ent ∈ es, p = ⟨scope, Ir.ScopeType.entity, ent.name⟩ ∧
        ∃ e, ent.constraint = some (.superTypeRule e) := by
  induction es generalizing pairs with
  | nil =>
    rw [Ir.collectEntities] at h
    injection h with h
    subst h
    simp
  | cons ent rest ih =>
    rw [Ir.collectEntities] at h
    rcases hc : ent.constraint with _ | con
    · rw [hc] at h
      dsimp only at h
      rw [ih pairs h]
      constructor
      · rintro ⟨x, hx, hp, e, he⟩
        exact ⟨x, by simp [hx], hp, e, he⟩
      · rintro ⟨x, hx, hp, e, he⟩
        rcases List.mem_cons.1 hx with rfl | hx
        · rw [hc] at he
          exact absurd he (by simp)
        · exact ⟨x, hx, hp, e, he⟩
    · rcases con with e0 | _
      · rw [hc] at h
        dsimp only at h
        rcases hfe : Ir.fromExpr (ns.resolveIdx scope) e0 with z | it <;> rw [hfe] at h <;>
          dsimp only at h
        · exact absurd h (by simp)
        · rcases hrec : Ir.collectEntities ns scope rest with z2 | tail <;>
            rw [hrec] at h <;> dsimp only at h
          · exact absurd h (by simp)
          · injection h with h
            subst h
            constructor
            · rintro ⟨v, hv⟩
              rcases List.mem_cons.1 hv with heq | hv
              · injection heq with h1 h2
                exact ⟨ent, by simp, h1, e0, hc⟩
              · obtain ⟨x, hx, hp, e, he⟩ := (ih _ hrec).1 ⟨v, hv⟩
                exact ⟨x, by simp [hx], hp, e, he⟩
            · rintro ⟨x, hx, hp, e, he⟩
              rcases List.mem_cons.1 hx with rfl | hx
              · subst hp
                exact ⟨it, List.mem_cons_self _ _⟩
              · obtain ⟨v, hv⟩ := (ih _ hrec).2 ⟨x, hx, hp, e, he⟩
                exact ⟨v, by simp [hv]⟩
      · rw [hc] at h
        dsimp only at h
        rw [ih pairs h]
        constructor
        · rintro ⟨x, hx, hp, e, he⟩
          exact ⟨x, by simp [hx], hp, e, he⟩
        · rintro ⟨x, hx, hp, e, he⟩
          rcases List.mem_cons.1 hx with rfl | hx
          · rw [hc] at he
            exact absurd he (by simp)
          · exact ⟨x, hx, hp, e, he⟩

/-- The pairs collected over all schemas are keyed exactly by the entities
carrying a `SUPERTYPE OF` rule, anywhere in the tree. -/
theorem collectSchemas_keys (ns : Ir.Namespace) (schemas : List Ir.SchemaAst)
    (pairs : List (Ir.Path × List (List Nat)))
    (h : Ir.collectSchemas ns schemas = .ok pairs) (p : Ir.Path) :
    (∃ v, (p, v) ∈ pairs) ↔
      ∃ s ∈ schemas, ∃ ent ∈ s.entities,
        p = ⟨[(Ir.ScopeType.schema, s.name)], Ir.ScopeType.entity, ent.name⟩ ∧
        ∃ e, ent.constraint = some (.superTypeRule e) := by
  induction schemas generalizing pairs with
  | nil =>
    rw [Ir.collectSchemas] at h
    injection h with h
    subst h
    simp
  | cons s rest ih =>
    rw [Ir.collectSchemas] at h
    rcases hce : Ir.collectEntities ns [(Ir.ScopeType.schema, s.name)] s.entities
        with z | here <;> rw [hce] at h <;> dsimp only at h
    · exact absurd h (by simp)
    · rcases hcs : Ir.collectSchemas ns rest with z2 | tail <;> rw [hcs] at h <;>
        dsimp only at h
      · exact absurd h (by simp)
      · injection h with h
        subst h
        constructor
        · rintro ⟨v, hv⟩
          rcases List.mem_append.1 hv with hv | hv
          · obtain ⟨ent, hent, hp, e, he⟩ :=
              (collectEntities_keys ns _ s.entities here hce p).1 ⟨v, hv⟩
            exact ⟨s, by simp, ent, hent, hp, e, he⟩
          · obtain ⟨s2, hs2, ent, hent, hp, e, he⟩ := (ih _ hcs).1 ⟨v, hv⟩
            exact ⟨s2, by simp [hs2], ent, hent, hp, e, he⟩
        · rintro ⟨s2, hs2, ent, hent, hp, e, he⟩
          rcases List.mem_cons.1 hs2 with rfl | hs2
          · obtain ⟨v, hv⟩ :=
              (collectEntities_keys ns _ s2.entities here hce p).2 ⟨ent, hent, hp, e, he⟩
            exact ⟨v, List.mem_append_left _ hv⟩
          · obtain ⟨v, hv⟩ := (ih _ hcs).2 ⟨s2, hs2, ent, hent, hp, e, he⟩
            exact ⟨v, List.mem_append_right _ hv⟩

/-- Replacing values leaves the keys of a pair list unchanged. -/
theorem keys_map_fst (pairs : List (Ir.Path × List (List Nat)))
    (g : Ir.Path × List (List Nat) → List (List Ir.Path)) (p : Ir.Path) :
    (∃ v, (p, v) ∈ pairs.map fun pr => (pr.1, g pr)) ↔ ∃ v, (p, v) ∈ pairs := by
  constructor
  · rintro ⟨v, hv⟩
    rw [List.mem_map] at hv
    obtain ⟨pr, hpr, heq⟩ := hv
    injection heq with h1 h2
    exact ⟨pr.2, by rw [← h1]; exact hpr⟩
  · rintro ⟨v, hv⟩
    exact ⟨g (p, v), List.mem_map.2 ⟨(p, v), hv, rfl⟩⟩

/-- `is_supertype` answers exactly key membership in the table. -/
theorem is_supertype_iff (c : Ir.Constraints) (p : Ir.Path) :
    c.is_supertype p = true ↔ ∃ v, (p, v) ∈ c.instantiables := by
  unfold Ir.Constraints.is_supertype
  rw [List.any_eq_true]
  constructor
  · rintro ⟨q, hq, hdec⟩
    rw [decide_eq_true_eq] at hdec
    exact ⟨q.2, by rw [← hdec]; exact hq⟩
  · rintro ⟨v, hv⟩
    exact ⟨(p, v), hv, by simp⟩

/-- Entities without a `SUPERTYPE OF` rule are skipped without error. -/
theorem collectEntities_skip (ns : Ir.Namespace) (scope : List (Ir.ScopeType × String))
    (es : List Ir.EntityAst)
    (h : ∀ ent ∈ es, ∀ e, ent.constraint ≠ some (.superTypeRule e)) :
    Ir.collectEntities ns scope es = .ok [] := by
  induction es with
  | nil => rfl
  | cons ent rest ih =>
    rw [Ir.collectEntities]
    rcases hc : ent.constraint with _ | con
    · exact ih fun x hx => h x (by simp [hx])
    · rcases con with e0 | _
      · exact absurd hc (h ent (by simp) e0)
      · exact ih fun x hx => h x (by simp [hx])

/-- A tree with no `SUPERTYPE OF` rule anywhere yields no entry and no
error. -/
theorem collectSchemas_skip (ns : Ir.Namespace) (schemas : List Ir.SchemaAst)
    (h : ∀ s ∈ schemas, ∀ ent ∈ s.entities, ∀ e,
      ent.constraint ≠ some (.superTypeRule e)) :
    Ir.collectSchemas ns schemas = .ok [] := by
  induction schemas with
  | nil => rfl
  | cons s rest ih =>
    rw [Ir.collectSchemas]
    rw [collectEntities_skip ns _ s.entities fun ent hent => h s (by simp) ent hent]
    dsimp only
    rw [ih fun s2 hs2 => h s2 (by simp [hs2])]
    rfl

/-- Claim C9: after a successful constraint analysis, the instantiables
table has an entry for a path exactly when some entity at that path
carries a `SUPERTYPE OF` constraint expression; `is_supertype` answers
exactly that key membership; and a tree without any such clause (no
constraint, or only other constraint forms) produces no entry and no
error. -/
theorem instantiables_iff (ns : Ir.Namespace) (st : Ir.SyntaxTree) (c : Ir.Constraints)
    (p : Ir.Path) (h : Ir.Constraints.new ns st = .ok c) :
    ((∃ v, (p, v) ∈ c.instantiables) ↔
      ∃ s ∈ st.schemas, ∃ ent ∈ s.entities,
        p = ⟨[(Ir.ScopeType.schema, s.name)], Ir.ScopeType.entity, ent.name⟩ ∧
        ∃ e, ent.constraint = some (.superTypeRule e))
    ∧ (c.is_supertype p = true ↔ ∃ v, (p, v) ∈ c.instantiables)
    ∧ (∀ (ns2 : Ir.Namespace) (st2 : Ir.SyntaxTree),
        (∀ s ∈ st2.schemas, ∀ ent ∈ s.entities, ∀ e,
          ent.constraint ≠ some (.superTypeRule e)) →
        Ir.Constraints.new ns2 st2 = .ok ⟨[]⟩) := by
  refine ⟨?_, is_supertype_iff c p, ?_⟩
  · unfold Ir.Constraints.new at h
    rcases hcs : Ir.collectSchemas ns st.schemas with z | pairs <;> rw [hcs] at h <;>
      dsimp only at h
    · exact absurd h (by simp)
    · injection h with h
      subst h
      dsimp only
      rw [keys_map_fst]
      exact collectSchemas_keys ns st.schemas pairs hcs p
  · intro ns2 st2 hno
    unfold Ir.Constraints.new
    rw [collectSchemas_skip ns2 st2.schemas hno]
    rfl

/-- Witness for claim C9's theorem on the example schema: `person`, which
carries the `SUPERTYPE OF` clause, is a supertype in the resulting table. -/
theorem instantiables_iff_witness :
    Ir.Constraints.is_supertype ⟨[(Example.personP, Example.exBundles)]⟩
      Example.personP = true :=
  ((instantiables_iff Example.exNs Example.exSt ⟨[(Example.personP, Example.exBundles)]⟩
      Example.personP (by decide)).2.1).mpr ⟨Example.exBundles, by simp⟩

/-- An entity with a `SUPERTYPE OF` rule contributes its expanded bundles
to the collected pairs. -/
theorem collectEntities_lookup (ns : Ir.Namespace) (scope : List (Ir.ScopeType × String))
    (es : List Ir.EntityAst) (pairs : List (Ir.Path × List (List Nat)))
    (ent : Ir.EntityAst) (e : Ir.ConstraintExpr)
    (h : Ir.collectEntities ns scope es = .ok pairs) (hent : ent ∈ es)
    (he : ent.constraint = some (.superTypeRule e)) :
    ∃ bundles, Ir.fromExpr (ns.resolveIdx scope) e = .ok bundles ∧
      (⟨scope, Ir.ScopeType.entity, ent.name⟩, bundles) ∈ pairs := by
  induction es generalizing pairs with
  | nil => cases hent
  | cons x rest ih =>
    rw [Ir.collectEntities] at h
    rcases hc : x.constraint with _ | con
    · rw [hc] at h
      dsimp only at h
      rcases List.mem_cons.1 hent with rfl | hent2
      · rw [hc] at he
        exact absurd he (by simp)
      · exact ih pairs h hent2
    · rcases con with e0 | _
      · rw [hc] at h
        dsimp only at h
        rcases hfe : Ir.fromExpr (ns.resolveIdx scope) e0 with z | it <;> rw [hfe] at h <;>
          dsimp only at h
        · exact absurd h (by simp)
        · rcases hrec : Ir.collectEntities ns scope rest with z2 | tail <;>
            rw [hrec] at h <;> dsimp only at h
          · exact absurd h (by simp)
          · injection h with h
            subst h
            rcases List.mem_cons.1 hent with rfl | hent2
            · rw [hc] at he
              injection he with he2
              injection he2 with he3
              subst he3
              exact ⟨it, hfe, List.mem_cons_self _ _⟩
            · obtain ⟨bundles, hb1, hb2⟩ := ih tail hrec hent2
              exact ⟨bundles, hb1, List.mem_cons_of_mem _ hb2⟩
      · rw [hc] at h
        dsimp only at h
        rcases List.mem_cons.1 hent with rfl | hent2
        · rw [hc] at he
          exact absurd he (by simp)
        · exact ih pairs h hent2

/-- An entity with a `SUPERTYPE OF` rule anywhere in the tree contributes
its expanded bundles to the collected pairs. -/
theorem collectSchemas_lookup (ns : Ir.Namespace) (schemas : List Ir.SchemaAst)
    (pairs : List (Ir.Path × List (List Nat))) (s : Ir.SchemaAst)
    (ent : Ir.EntityAst) (e : Ir.ConstraintExpr)
    (h : Ir.collectSchemas ns schemas = .ok pairs) (hs : s ∈ schemas)
    (hent : ent ∈ s.entities) (he : ent.constraint = some (.superTypeRule e)) :
    ∃ bundles, Ir.fromExpr (ns.resolveIdx [(Ir.ScopeType.schema, s.name)]) e = .ok bundles ∧
      (⟨[(Ir.ScopeType.schema, s.name)], Ir.ScopeType.entity, ent.name⟩, bundles) ∈ pairs := by
  induction schemas generalizing pairs with
  | nil => cases hs
  | cons x rest ih =>
    rw [Ir.collectSchemas] at h
    rcases hce : Ir.collectEntities ns [(Ir.ScopeType.schema, x.name)] x.entities
        with z | here <;> rw [hce] at h <;> dsimp only at h
    · exact absurd h (by simp)
    · rcases hcs : Ir.collectSchemas ns rest with z2 | tail <;> rw [hcs] at h <;>
        dsimp only at h
      · exact absurd h (by simp)
      · injection h with h
        subst h
        rcases List.mem_cons.1 hs with rfl | hs2
        · obtain ⟨bundles, hb1, hb2⟩ :=
            collectEntities_lookup ns _ s.entities here ent e hce hent he
          exact ⟨bundles, hb1, List.mem_append_left _ hb2⟩
        · obtain ⟨bundles, hb1, hb2⟩ := ih tail hcs hs2
          exact ⟨bundles, hb1, List.mem_append_right _ hb2⟩

/-- Claim C1: the constraint analyzer stores, for every entity with a
`SUPERTYPE OF` expression, the fold of that expression with every leaf
resolved to an entity path — where a leaf yields its singleton bundle,
`ONEOF` concatenates its children's bundle sequences, `AND` forms the
concatenating Cartesian product, and `ANDOR` forms A's bundles, B's
bundles and their product — and in particular
`SUPERTYPE OF (ONEOF(male,female) AND ONEOF(citizen,alien))` yields the
four bundles `[male,citizen]`, `[male,alien]`, `[female,citizen]`,
`[female,alien]`. -/
theorem constraints_expansion :
    (∀ (ns : Ir.Namespace) (st : Ir.SyntaxTree) (s : Ir.SchemaAst)
      (ent : Ir.EntityAst) (e : Ir.ConstraintExpr) (c : Ir.Constraints),
      Ir.Constraints.new ns st = .ok c → s ∈ st.schemas → ent ∈ s.entities →
      ent.constraint = some (.superTypeRule e) →
      ∃ bundles, Ir.fromExpr (ns.resolveIdx [(Ir.ScopeType.schema, s.name)]) e = .ok bundles ∧
        (⟨[(Ir.ScopeType.schema, s.name)], Ir.ScopeType.entity, ent.name⟩,
          bundles.map fun bu => bu.map (Ir.pathAt ns)) ∈ c.instantiables)
    ∧ (∀ (r : String → Except Ir.SemanticError Nat) (a : String) (i : Nat),
      r a = .ok i → Ir.fromExpr r (.leaf a) = .ok [[i]])
    ∧ (∀ (r : String → Except Ir.SemanticError Nat) (x : Ir.ConstraintExpr)
      (xs : List Ir.ConstraintExpr) (A B : List (List Nat)),
      Ir.fromExpr r x = .ok A → Ir.fromExprList r xs = .ok B →
      Ir.fromExpr r (.oneOf (x :: xs)) = .ok (A ++ B))
    ∧ (∀ (r : String → Except Ir.SemanticError Nat) (l rr : Ir.ConstraintExpr)
      (A B : List (List Nat)),
      Ir.fromExpr r l = .ok A → Ir.fromExpr r rr = .ok B →
      Ir.fromExpr r (.and l rr) = .ok (A.flatMap fun u => B.map fun w => u ++ w))
    ∧ (∀ (r : String → Except Ir.SemanticError Nat) (l rr : Ir.ConstraintExpr)
      (A B : List (List Nat)),
      Ir.fromExpr r l = .ok A → Ir.fromExpr r rr = .ok B →
      Ir.fromExpr r (.andOr l rr) =
        .ok (A ++ B ++ A.flatMap fun u => B.map fun w => u ++ w))
    ∧ Ir.Constraints.new Example.exNs Example.exSt =
        .ok ⟨[(Example.personP, Example.exBundles)]⟩ := by
  refine ⟨?_, ?_, ?_, ?_, ?_, by decide⟩
  · intro ns st s ent e c h hs hent he
    unfold Ir.Constraints.new at h
    rcases hcs : Ir.collectSchemas ns st.schemas with z | pairs <;> rw [hcs] at h <;>
      dsimp only at h
    · exact absurd h (by simp)
    · injection h with h
      subst h
      obtain ⟨bundles, hb1, hb2⟩ := collectSchemas_lookup ns st.schemas pairs s ent e hcs hs hent he
      refine ⟨bundles, hb1, ?_⟩
      dsimp only
      exact List.mem_map.2 ⟨(_, bundles), hb2, rfl⟩
  · intro r a i h
    rw [Ir.fromExpr, h]
  · intro r x xs A B h1 h2
    rw [Ir.fromExpr, Ir.fromExprList, h1, h2]
  · intro r l rr A B h1 h2
    rw [Ir.fromExpr, h1, h2]
  · intro r l rr A B h1 h2
    rw [Ir.fromExpr, h1, h2]

/-- Witness for claim C1's theorem: its general part applied to the
example schema. -/
theorem constraints_expansion_witness :
    ∃ bundles,
      Ir.fromExpr (Example.exNs.resolveIdx [(Ir.ScopeType.schema, Example.exSchema.name)])
        Example.exExpr = .ok bundles ∧
      (⟨[(Ir.ScopeType.schema, Example.exSchema.name)], Ir.ScopeType.entity,
          Example.exPerson.name⟩,
        bundles.map fun bu => bu.map (Ir.pathAt Example.exNs)) ∈
        (⟨[(Example.personP, Example.exBundles)]⟩ : Ir.Constraints).instantiables :=
  constraints_expansion.1 Example.exNs Example.exSt Example.exSchema Example.exPerson
    Example.exExpr ⟨[(Example.personP, Example.exBundles)]⟩ (by decide)
    (by simp [Example.exSt]) (by simp [Example.exSchema]) rfl
